import Mathlib

/-!
Verification of the retrieval / context-assembly pipeline of the chatapp
repository against its specification.

Shallow embedding conventions:
* JS strings are `List Char`; JS numbers carrying scores are `ℚ`
  (exact-rational model of float arithmetic); array indices are `Nat`
  (with `Int` where JS arithmetic can go negative).
* Postgres text-search lexemes (`to_tsvector` / `plainto_tsquery` output)
  are modelled at token level (`Token`), and the pgvector distance
  operator and the embedding service are taken as explicit function
  parameters, since they are external collaborators of the spec.
* Fallible or possibly non-terminating loops are modelled with fuel and
  `Option` / `Except`.
-/

namespace ChatApp

/-! ## JS primitives -/

/-- JS `String.prototype.slice(a, b)`: negative indices count from the
end, then both bounds are clamped to `[0, length]`, and the substring
`[lo, hi)` is returned (empty when `hi ≤ lo`). -/
def jsSlice (s : List Char) (a b : Int) : List Char :=
  let n : Int := s.length
  let lo : Int := if a < 0 then max (n + a) 0 else min a n
  let hi : Int := if b < 0 then max (n + b) 0 else min b n
  (s.drop lo.toNat).take (hi - lo).toNat

/-- JS `String.prototype.toLowerCase` on ASCII text. -/
def toLowerL (s : List Char) : List Char := s.map Char.toLower

/-- `startsWithL pat s` : does `s` start with `pat`? -/
def startsWithL : List Char → List Char → Bool
  | [], _ => true
  | _ :: _, [] => false
  | p :: ps, c :: cs => p == c && startsWithL ps cs

/-- JS `String.prototype.includes(pat)`: `pat` occurs as a contiguous
substring of `s`. -/
def hasSubstr (pat : List Char) : List Char → Bool
  | [] => startsWithL pat []
  | c :: rest => startsWithL pat (c :: rest) || hasSubstr pat rest

/-- State machine for JS `String.prototype.split(/\s+/)`: `skipping`
records that we are inside a whitespace run whose boundary token was
already emitted.  Matches JS edge behaviour: a leading whitespace run
yields a leading empty token, a trailing run a trailing empty token, and
`""` yields `[""]`. -/
def splitWsAux : Bool → List Char → List Char → List (List Char)
  | _, acc, [] => [acc.reverse]
  | skipping, acc, c :: rest =>
    if c.isWhitespace then
      if skipping then splitWsAux true acc rest
      else acc.reverse :: splitWsAux true [] rest
    else splitWsAux false (c :: acc) rest

/-- JS `s.split(/\s+/)`. -/
def splitWs (s : List Char) : List (List Char) := splitWsAux false [] s

/-! ## Segmenter (`chunkText`, src: document text-extraction module)

```
export function chunkText(text, chunkSize = 1000, overlap = 200) {
  const chunks = []; let start = 0;
  while (start < text.length) {
    const end = Math.min(start + chunkSize, text.length);
    chunks.push(text.slice(start, end));
    start += chunkSize - overlap;
  }
  return chunks;
}
```

The loop has no guard on `overlap >= chunkSize`; we interpret it with
fuel, `none` meaning the loop did not finish within `fuel` iterations.
`start` is an `Int` because the JS step `chunkSize - overlap` can be
negative. -/

def chunkTextGo (text : List Char) (chunkSize overlap : Nat) :
    Nat → Int → Option (List (List Char))
  | 0, _ => none
  | fuel + 1, start =>
    if start < (text.length : Int) then
      (chunkTextGo text chunkSize overlap fuel
          (start + ((chunkSize : Int) - (overlap : Int)))).map
        (fun rest =>
          jsSlice text start (min (start + (chunkSize : Int)) (text.length : Int)) :: rest)
    else
      some []

/-- `chunkText text chunkSize overlap fuel` runs the source loop from
`start = 0` with the given iteration budget. -/
def chunkText (text : List Char) (chunkSize overlap fuel : Nat) :
    Option (List (List Char)) :=
  chunkTextGo text chunkSize overlap fuel 0

/-! ## Summarizer coalesce (`coalesceChunks`,
src: scripts/production/generate-document-embeddings.ts)

The inner scan tries candidate overlap sizes from
`min(400, result.length, current.length)` down to `50`; on the first
(i.e. largest) match it appends only the non-overlapping remainder,
otherwise the chunk is appended after a newline separator. -/

/-- The descending candidate-overlap scan.  `findOverlapSize res cur k`
returns the largest `k' ≤ k` with `50 ≤ k'` such that the length-`k'`
suffix of `res` (JS `res.slice(-k')`) equals the length-`k'` prefix of
`cur` (JS `cur.slice(0, k')`). -/
def findOverlapSize (res cur : List Char) : Nat → Option Nat
  | 0 => none
  | k + 1 =>
    if k + 1 < 50 then none
    else if res.drop (res.length - (k + 1)) = cur.take (k + 1) then some (k + 1)
    else findOverlapSize res cur k

/-- One iteration of the `coalesceChunks` loop body. -/
def coalesceStep (res cur : List Char) : List Char :=
  match findOverlapSize res cur (min 400 (min res.length cur.length)) with
  | some k => res ++ cur.drop k
  | none => res ++ '\n' :: cur

/-- `coalesceChunks`: empty input gives `""`; otherwise fold the loop
body over the chunks after the first (the single-chunk early return of
the source coincides with the fold doing nothing). -/
def coalesceChunks : List (List Char) → List Char
  | [] => []
  | c :: rest => rest.foldl coalesceStep c

/-! ## Embedder Client (`generateEmbeddings`, src: lib/chat/openai.ts)

The service is an external capability: given a batch of at most 2048
texts it returns indexed embeddings or an error.  The client slices the
input into batches of 2048, re-sorts each response by its `index` tag,
concatenates the embeddings in order, and rethrows any service error.
There is no check that the number of returned vectors matches the batch
size. -/

/-- Comparator used on the service response, JS `(a, b) => a.index - b.index`. -/
def idxPairLe (a b : Nat × List ℚ) : Prop := a.1 ≤ b.1

instance : DecidableRel idxPairLe := fun a b => Nat.decLe a.1 b.1

def generateEmbeddings {α ε : Type}
    (service : List α → Except ε (List (Nat × List ℚ))) :
    List α → Except ε (List (List ℚ))
  | [] => .ok []
  | t :: ts =>
    match service ((t :: ts).take 2048) with
    | .error e => .error e
    | .ok data =>
      (generateEmbeddings service ((t :: ts).drop 2048)).map
        (fun rest => (List.insertionSort idxPairLe data).map Prod.snd ++ rest)
termination_by texts => texts.length
decreasing_by
  simp only [List.drop_succ_cons, List.length_cons, List.length_drop]
  omega

/-! ## `cosineSimilarity` (src: lib/chat/openai.ts)

```
let dotProduct = 0; let normA = 0; let normB = 0;
for (let i = 0; i < a.length; i++) {
  dotProduct += a[i] * b[i]; normA += a[i] * a[i]; normB += b[i] * b[i];
}
return dotProduct / (Math.sqrt(normA) * Math.sqrt(normB));
```

We model the accumulators pairwise (the system invariant of the spec,
section 3, gives `a.length = b.length`; the loop reads `b[i]` for
`i < a.length`). The returned quotient itself is irrational in general;
what the embedding captures exactly is when its denominator
`Math.sqrt(normA) * Math.sqrt(normB)` is zero.  Since `normA, normB` are
sums of squares, `Math.sqrt normA * Math.sqrt normB = 0` iff
`normA = 0 ∨ normB = 0`, and in that case the numerator `dotProduct` is
zero as well (a zero-norm factor is the all-zero vector), so the JS
division is `0 / 0 = NaN`. -/

def dotProduct : List ℚ → List ℚ → ℚ
  | [], _ => 0
  | _, [] => 0
  | x :: xs, y :: ys => x * y + dotProduct xs ys

/-- The accumulator `normA` (resp. `normB`): the sum of squares. -/
def normSq (v : List ℚ) : ℚ := (v.map (fun x => x * x)).sum

/-- `cosineSimilarity a b` evaluates to the IEEE value `NaN` exactly when
its denominator is zero, i.e. when either sum of squares is zero (see
the section comment). -/
def cosineSimilarityIsNaN (a b : List ℚ) : Bool :=
  normSq a == 0 || normSq b == 0

/-! ## Heuristic Quality Scorer (`scoreResponseHeuristic`,
src: lib/chat/quality-scorer.ts) -/

/-- The apostrophe character (U+0027). -/
def apos : Char := Char.ofNat 39

/-- The fixed refusal-phrase list of the source. -/
def refusalPhrases : List (List Char) :=
  [ "does not contain".toList,
    "I don".toList ++ apos :: "t have".toList,
    "cannot find".toList,
    "no information".toList,
    "I".toList ++ apos :: "m sorry".toList ]

/-- `refusalPhrases.some(phrase => response.toLowerCase().includes(phrase.toLowerCase()))`. -/
def hasRefusalIn (response : List Char) : Bool :=
  refusalPhrases.any (fun p => hasSubstr (toLowerL p) (toLowerL response))

/-- The context-use check: how many of the first 100 whitespace-separated
lowercased context words of length `> 4` also occur among the response's
words. -/
def contextOverlapCount (context response : List Char) : Nat :=
  (((splitWs (toLowerL context)).take 100).filter
    (fun w => w.length > 4 && (splitWs (toLowerL response)).contains w)).length

/-- JS `Math.min` on our rational model of JS numbers. -/
def jsMin (a b : ℚ) : ℚ := if a ≤ b then a else b

/-- JS `x.toFixed(0)` (round to nearest, ties away from zero). -/
def jsToFixed0 (q : ℚ) : Int :=
  if q < 0 then -((-q + 1/2).floor) else (q + 1/2).floor

/-- The default reasoning string of the heuristic scorer. -/
def heuristicReasoning (chunksRetrieved : Nat) (avgSimilarity : ℚ)
    (responseLength : Nat) : List Char :=
  "Heuristic scoring: ".toList ++ (toString chunksRetrieved).toList
    ++ " chunks, ".toList ++ (toString (jsToFixed0 (avgSimilarity * 100))).toList
    ++ "% similarity, ".toList ++ (toString responseLength).toList
    ++ " chars.".toList

structure QualityScores where
  relevance : ℚ
  completeness : ℚ
  accuracy : ℚ
  coherence : ℚ
  overall : ℚ
  reasoning : List Char
deriving DecidableEq

/-- Direct translation of `scoreResponseHeuristic`; the sequence of
`let`s mirrors the source's sequence of reassignments. -/
def scoreResponseHeuristic (query context response : List Char)
    (chunksRetrieved : Nat) (avgSimilarity : ℚ) : QualityScores :=
  let relevance : ℚ :=
    if avgSimilarity ≥ 8/10 then 9/10
    else if avgSimilarity ≥ 7/10 then 3/4
    else if avgSimilarity ≥ 6/10 then 3/5
    else 2/5
  let relevance : ℚ := if chunksRetrieved = 0 then 1/5 else relevance
  let hasRefusal := hasRefusalIn response
  let accuracy : ℚ := if hasRefusal then 3/10 else 7/10
  let completeness : ℚ := if hasRefusal then 1/5 else 7/10
  let reasoning : List Char :=
    if hasRefusal then "Response indicates information not found in context.".toList
    else []
  let completeness : ℚ :=
    if response.length < 100 then completeness * (3/5)
    else if response.length > 1500 then completeness * (4/5)
    else completeness
  let hasPunctuation := response.any (fun c => c == '.' || c == '!' || c == '?')
  let hasCapitalization := response.any (fun c => 'A' ≤ c && c ≤ 'Z')
  let coherence : ℚ := if hasPunctuation && hasCapitalization then 7/10 else 1/2
  let accuracy : ℚ :=
    if contextOverlapCount context response > 10 then jsMin 1 (accuracy + 1/5)
    else accuracy
  let overall : ℚ := (relevance + completeness + accuracy + coherence) / 4
  let reasoning : List Char :=
    if reasoning = [] then
      heuristicReasoning chunksRetrieved avgSimilarity response.length
    else reasoning
  { relevance := relevance, completeness := completeness, accuracy := accuracy,
    coherence := coherence, overall := overall, reasoning := reasoning }

/-! ## Hybrid Scorer (`hybrid_search_simple`, final migration:
"Final fix: Use OR logic for BM25 scoring instead of AND")

The operative SQL function (after all `CREATE OR REPLACE` migrations):

* `query_tsquery_and := plainto_tsquery('english', query_text)`;
* `query_tsquery_or` replaces every `&` with `|` in it;
* `vector_results`: chunks joined with their document, kept when
  `1 - (embedding <=> query_embedding) > match_threshold` and the
  optional company filter passes;
* `scored_results`: `bm25_rank(to_tsvector(chunk_text), query_tsquery_or)`
  plus the strict AND-match flag;
* final select: fused score `bm25*bm25_weight + vector*vector_weight`,
  `rank_method` from the flag / positivity of the BM25 score, order by
  fused score descending, `LIMIT match_count`.

Postgres text search is external; we model it at lexeme level: a chunk's
`to_tsvector` is a `List Token`, a `tsquery` is its term list plus the
AND/OR connective. -/

abbrev Token := String

/-- A `tsquery` whose terms are all connected by `&` (`allRequired`) or
all by `|`. These are the only two shapes the function builds. -/
structure TSQuery where
  terms : List Token
  allRequired : Bool
deriving DecidableEq

/-- The `@@` match operator on these queries: AND requires every term,
OR any term. -/
def tsMatch (doc : List Token) (q : TSQuery) : Bool :=
  if q.allRequired then q.terms.all (fun t => doc.contains t)
  else q.terms.any (fun t => doc.contains t)

/-- Occurrences of a lexeme in a tsvector. -/
def countOcc (t : Token) (doc : List Token) : Nat :=
  (doc.filter (fun x => x == t)).length

/-- Model of the store's relevance primitive `ts_rank_cd(v, q, 32)`.
The spec characterises it as term-frequency / length-normalised ranking
in which any matching term contributes; normalisation flag 32 maps a raw
rank `r` to `r / (r + 1)`.  Cover-density details are abstracted: the
raw rank is the length-normalised sum of the query terms' frequencies,
and, as in Postgres, the rank is `0` when the document does not match
the query. -/
def tsRankCd (doc : List Token) (q : TSQuery) : ℚ :=
  if tsMatch doc q then
    let r : ℚ := ((q.terms.map (fun t => countOcc t doc)).sum : ℚ) / (doc.length : ℚ)
    r / (r + 1)
  else 0

/-- `bm25_rank` (migration 03) is a direct wrapper of `ts_rank_cd` with
normalisation 32. -/
def bm25_rank (v : List Token) (q : TSQuery) : ℚ := tsRankCd v q

/-- The textual `' & '` → `' | '` rewrite of the AND query. -/
def plainToOr (q : TSQuery) : TSQuery := { terms := q.terms, allRequired := false }

structure DocRow where
  id : Nat
  company_id : Nat
deriving DecidableEq

structure ChunkRow where
  id : Nat
  document_id : Nat
  chunk_index : Nat
  /-- `to_tsvector('english', chunk_text)` of the chunk. -/
  tokens : List Token
  embedding : List ℚ
deriving DecidableEq

inductive RankMethod
  | hybrid
  | partialKeyword
  | vectorOnly
deriving DecidableEq

structure ScoredRow where
  id : Nat
  document_id : Nat
  chunk_index : Nat
  tokens : List Token
  bm25_score : ℚ
  vector_score : ℚ
  combined_score : ℚ
  rank_method : RankMethod
deriving DecidableEq

/-- `filter_company_id IS NULL OR d.company_id = filter_company_id`. -/
def companyOk : Option Nat → DocRow → Bool
  | none, _ => true
  | some cid, d => d.company_id == cid

/-- The `vector_results` CTE: chunks inner-joined with `documents`,
restricted to the company filter and to
`1 - (embedding <=> query_embedding) > match_threshold`; each survivor
is paired with its vector score.  `dist` is the external pgvector cosine
distance operator `<=>`. -/
def vectorResults (dist : List ℚ → List ℚ → ℚ) (docs : List DocRow)
    (chunks : List ChunkRow) (queryEmbedding : List ℚ) (matchThreshold : ℚ)
    (filterCompanyId : Option Nat) : List (ChunkRow × ℚ) :=
  chunks.filterMap (fun dc =>
    if docs.any (fun d => dc.document_id == d.id && companyOk filterCompanyId d)
        && decide (matchThreshold < 1 - dist dc.embedding queryEmbedding) then
      some (dc, 1 - dist dc.embedding queryEmbedding)
    else none)

/-- The `scored_results` CTE plus the final `SELECT` expressions for one
surviving chunk: OR-based BM25 score, fused score, and rank method from
the strict AND-match flag. -/
def mkScored (queryAnd queryOr : TSQuery) (bm25Weight vectorWeight : ℚ)
    (p : ChunkRow × ℚ) : ScoredRow :=
  let bm := bm25_rank p.1.tokens queryOr
  let isBooleanMatch := tsMatch p.1.tokens queryAnd
  { id := p.1.id, document_id := p.1.document_id, chunk_index := p.1.chunk_index,
    tokens := p.1.tokens,
    bm25_score := bm, vector_score := p.2,
    combined_score := bm * bm25Weight + p.2 * vectorWeight,
    rank_method :=
      if isBooleanMatch then .hybrid
      else if 0 < bm then .partialKeyword
      else .vectorOnly }

/-- `ORDER BY combined_score DESC`. -/
def scoredGe (a b : ScoredRow) : Prop := b.combined_score ≤ a.combined_score

instance : DecidableRel scoredGe := fun a b => inferInstanceAs (Decidable (b.combined_score ≤ a.combined_score))

/-- `hybrid_search_simple` (final OR-logic version).  `queryTerms` is the
lexeme list of `plainto_tsquery('english', query_text)`. -/
def hybrid_search_simple (dist : List ℚ → List ℚ → ℚ) (docs : List DocRow)
    (chunks : List ChunkRow) (queryTerms : List Token) (queryEmbedding : List ℚ)
    (matchThreshold : ℚ) (matchCount : Nat) (filterCompanyId : Option Nat)
    (bm25Weight vectorWeight : ℚ) : List ScoredRow :=
  let queryAnd : TSQuery := { terms := queryTerms, allRequired := true }
  let queryOr : TSQuery := plainToOr queryAnd
  (List.insertionSort scoredGe
    ((vectorResults dist docs chunks queryEmbedding matchThreshold filterCompanyId).map
      (mkScored queryAnd queryOr bm25Weight vectorWeight))).take matchCount

/-! ## Context Assembler (src: app/api/chat/route.ts)

Grouping by `document_id` via a JS `Map` (insertion-ordered), per-group
ascending sort by `chunk_index`, a walk that starts a new group whenever
the next index is not exactly the previous index plus one,
`createMergedChunk` aggregation, and a final descending sort by
`max_combined_score`. -/

/-- A row as the route reads it from the search RPC (the
`document_similarity` column is absent, hence `|| 0`, for the plain
search). -/
structure RetrievedChunk where
  id : Nat
  document_id : Nat
  chunk_text : List Char
  chunk_index : Nat
  bm25_score : ℚ
  vector_score : ℚ
  combined_score : ℚ
  document_similarity : ℚ
deriving DecidableEq

structure MergedChunk where
  document_id : Nat
  chunk_ids : List Nat
  chunk_indices : List Nat
  merged_text : List Char
  avg_combined_score : ℚ
  max_combined_score : ℚ
  max_bm25_score : ℚ
  max_vector_score : ℚ
  max_document_similarity : ℚ
  avg_bm25_score : ℚ
  avg_vector_score : ℚ
  avg_document_similarity : ℚ
deriving DecidableEq

/-- JS `Math.max(...xs)` over a nonempty list (`0` as the unreachable
empty-list default; groups are never empty). -/
def listMax : List ℚ → ℚ
  | [] => 0
  | x :: xs => xs.foldl max x

/-- `xs.reduce((sum, c) => sum + c, 0) / xs.length`. -/
def listAvg (l : List ℚ) : ℚ := (l.foldl (· + ·) 0) / (l.length : ℚ)

/-- `chunks.map(c => c.chunk_text).join(" ")`. -/
def joinSpace (l : List (List Char)) : List Char := List.intercalate [' '] l

/-- `createMergedChunk` (route.ts). -/
def createMergedChunk (chunks : List RetrievedChunk) : MergedChunk :=
  { document_id := ((chunks.head?).map (fun c => c.document_id)).getD 0,
    chunk_ids := chunks.map (fun c => c.id),
    chunk_indices := chunks.map (fun c => c.chunk_index),
    merged_text := joinSpace (chunks.map (fun c => c.chunk_text)),
    avg_combined_score := listAvg (chunks.map (fun c => c.combined_score)),
    max_combined_score := listMax (chunks.map (fun c => c.combined_score)),
    max_bm25_score := listMax (chunks.map (fun c => c.bm25_score)),
    max_vector_score := listMax (chunks.map (fun c => c.vector_score)),
    max_document_similarity := listMax (chunks.map (fun c => c.document_similarity)),
    avg_bm25_score := listAvg (chunks.map (fun c => c.bm25_score)),
    avg_vector_score := listAvg (chunks.map (fun c => c.vector_score)),
    avg_document_similarity := listAvg (chunks.map (fun c => c.document_similarity)) }

/-- One step of filling the insertion-ordered JS `Map`: append the chunk
to the first bucket with its `document_id`, or open a new bucket at the
end. -/
def addToGroups : List (Nat × List RetrievedChunk) → RetrievedChunk →
    List (Nat × List RetrievedChunk)
  | [], c => [(c.document_id, [c])]
  | (d, b) :: rest, c =>
    if c.document_id = d then (d, b ++ [c]) :: rest
    else (d, b) :: addToGroups rest c

/-- `chunksByDocument`: the insertion-ordered grouping map. -/
def groupByDocument (l : List RetrievedChunk) : List (Nat × List RetrievedChunk) :=
  l.foldl addToGroups []

/-- `(a, b) => a.chunk_index - b.chunk_index` ascending sort order. -/
def idxLe (a b : RetrievedChunk) : Prop := a.chunk_index ≤ b.chunk_index

instance : DecidableRel idxLe := fun a b => Nat.decLe a.chunk_index b.chunk_index

def sortByIdx (b : List RetrievedChunk) : List RetrievedChunk :=
  List.insertionSort idxLe b

/-- The consecutive-run walk: `cur` is `lastInGroup`, `acc` the rest of
`currentGroup` in reverse. -/
def splitRunsGo (cur : RetrievedChunk) (acc : List RetrievedChunk) :
    List RetrievedChunk → List (List RetrievedChunk)
  | [] => [(cur :: acc).reverse]
  | c :: rest =>
    if c.chunk_index = cur.chunk_index + 1 then splitRunsGo c (cur :: acc) rest
    else (cur :: acc).reverse :: splitRunsGo c [] rest

/-- Split a (sorted) document bucket into maximal consecutive-index runs. -/
def splitRuns : List RetrievedChunk → List (List RetrievedChunk)
  | [] => []
  | c :: rest => splitRunsGo c [] rest

/-- The `chunksByDocument.forEach` loop: per bucket, sort by index, walk
into runs, aggregate each run; passages accumulate across buckets. -/
def mergedChunksOf (l : List RetrievedChunk) : List MergedChunk :=
  (groupByDocument l).foldl
    (fun acc p => acc ++ (splitRuns (sortByIdx p.2)).map createMergedChunk) []

/-- `(a, b) => b.max_combined_score - a.max_combined_score` descending
sort order. -/
def scoreGe (a b : MergedChunk) : Prop :=
  b.max_combined_score ≤ a.max_combined_score

instance : DecidableRel scoreGe := fun a b => inferInstanceAs (Decidable (b.max_combined_score ≤ a.max_combined_score))

/-- The assembled, score-ordered passage list of one request. -/
def assembleMergedChunks (l : List RetrievedChunk) : List MergedChunk :=
  List.insertionSort scoreGe (mergedChunksOf l)

/-! ## Supporting lemmas -/

lemma dotProduct_replicate_zero : ∀ (n : Nat) (b : List ℚ),
    dotProduct (List.replicate n 0) b = 0 := by
  intro n
  induction n with
  | zero => intro b; cases b <;> rfl
  | succ n ih =>
    intro b
    cases b with
    | nil => rfl
    | cons y ys => simp [List.replicate_succ, dotProduct, ih]

lemma normSq_replicate_zero (n : Nat) : normSq (List.replicate n 0) = 0 := by
  simp [normSq, List.map_replicate]

/-! ## Claims -/

/-- C9: the heuristic Quality Scorer never reads its `query` argument:
for any two query strings and identical remaining inputs it returns
identical scores in all four dimensions, overall, and reasoning. -/
theorem scoreResponseHeuristic_query_independent
    (q1 q2 context response : List Char) (n : Nat) (s : ℚ) :
    scoreResponseHeuristic q1 context response n s =
      scoreResponseHeuristic q2 context response n s := rfl

/-- C10: on an all-zero vector the accumulators of `cosineSimilarity`
make the numerator `dotProduct` and the sum of squares `normA` both `0`,
so the denominator `Math.sqrt normA * Math.sqrt normB` is `0` and the JS
division yields `NaN` rather than an error or a defined score. -/
theorem cosineSimilarity_zero_vector_nan (n : Nat) (b : List ℚ) :
    cosineSimilarityIsNaN (List.replicate n 0) b = true ∧
      dotProduct (List.replicate n 0) b = 0 ∧
      normSq (List.replicate n 0) = 0 := by
  refine ⟨?_, dotProduct_replicate_zero n b, normSq_replicate_zero n⟩
  simp [cosineSimilarityIsNaN, normSq_replicate_zero n]

/-- C5 (code bug): `chunkText` has no configuration check; with
`overlap = chunkSize` (here both `1`, text `"a"`) the loop step
`chunkSize - overlap` is `0`, `start` never advances, and the loop never
terminates for any iteration budget — the code neither raises a
`SegmentationConfigError` nor returns a chunk sequence. -/
theorem chunkText_overlap_eq_size_diverges (fuel : Nat) :
    chunkText ['a'] 1 1 fuel = none := by
  show chunkTextGo ['a'] 1 1 fuel 0 = none
  induction fuel with
  | zero => rfl
  | succ fuel ih =>
    rw [chunkTextGo, if_pos (by norm_num)]
    rw [show ((0 : Int) + (((1 : Nat) : Int) - ((1 : Nat) : Int))) = (0 : Int) by norm_num]
    rw [ih]
    rfl

lemma ceil_div_shift (m step : Nat) (hstep : 0 < step) (hm : 1 ≤ m) :
    (m + step - 1) / step = ((m - step) + step - 1) / step + 1 := by
  rw [show m + step - 1 = (m - 1) + step by omega, Nat.add_div_right _ hstep]
  by_cases h : m ≤ step
  · rw [show m - step = 0 by omega]
    rw [Nat.div_eq_of_lt (by omega), Nat.div_eq_of_lt (by omega)]
  · push_neg at h
    rw [show (m - step) + step - 1 = ((m - 1) - step) + step by omega,
      Nat.add_div_right _ hstep]
    conv_lhs => rw [show m - 1 = ((m - 1) - step) + step by omega,
      Nat.add_div_right _ hstep]

lemma jsSlice_window (s : List Char) (a cs : Nat) (ha : a ≤ s.length) :
    jsSlice s (a : Int) (min ((a : Int) + (cs : Int)) ((s.length : Nat) : Int)) =
      (s.drop a).take cs := by
  simp only [jsSlice]
  rw [if_neg (by omega), if_neg (by omega)]
  rw [show min (a : Int) ((s.length : Nat) : Int) = (a : Int) by omega]
  rw [show min (min ((a : Int) + (cs : Int)) ((s.length : Nat) : Int))
      ((s.length : Nat) : Int) = min ((a : Int) + (cs : Int)) ((s.length : Nat) : Int)
    by omega]
  rw [show ((a : Int)).toNat = a by omega]
  rcases le_or_lt (a + cs) s.length with h | h
  · rw [show min ((a : Int) + (cs : Int)) ((s.length : Nat) : Int) = (a : Int) + cs
      by omega]
    rw [show ((a : Int) + cs - a).toNat = cs by omega]
  · rw [show min ((a : Int) + (cs : Int)) ((s.length : Nat) : Int) =
      ((s.length : Nat) : Int) by omega]
    rw [show (((s.length : Nat) : Int) - a).toNat = s.length - a by omega]
    have hlen : (s.drop a).length = s.length - a := List.length_drop a s
    rw [show s.length - a = (s.drop a).length from hlen.symm, List.take_length]
    exact (List.take_of_length_le (by omega)).symm

lemma chunkTextGo_windows (text : List Char) (cs ov : Nat) (hov : ov < cs) :
    ∀ (fuel start : Nat), text.length - start < fuel →
      chunkTextGo text cs ov fuel (start : Int) =
        some ((List.range ((text.length - start + (cs - ov) - 1) / (cs - ov))).map
          (fun i => (text.drop (start + i * (cs - ov))).take cs)) := by
  intro fuel
  induction fuel with
  | zero => intro start h; omega
  | succ fuel ih =>
    intro start h
    rw [chunkTextGo]
    by_cases hst : start < text.length
    · rw [if_pos (by exact_mod_cast hst)]
      rw [show (start : Int) + ((cs : Int) - (ov : Int)) =
          ((start + (cs - ov) : Nat) : Int) by push_cast [Nat.cast_sub hov.le]; ring]
      rw [ih (start + (cs - ov)) (by omega), Option.map_some']
      have hm : (text.length - start + (cs - ov) - 1) / (cs - ov) =
          (text.length - (start + (cs - ov)) + (cs - ov) - 1) / (cs - ov) + 1 := by
        rw [show text.length - (start + (cs - ov)) =
          (text.length - start) - (cs - ov) by omega]
        exact ceil_div_shift _ _ (by omega) (by omega)
      have hhead : jsSlice text (start : Int)
          (min ((start : Int) + (cs : Int)) ((text.length : Nat) : Int)) =
          (text.drop (start + 0 * (cs - ov))).take cs := by
        rw [Nat.zero_mul, Nat.add_zero]
        exact jsSlice_window text start cs hst.le
      have htail : List.map
          ((fun i => (text.drop (start + i * (cs - ov))).take cs) ∘ Nat.succ)
          (List.range ((text.length - (start + (cs - ov)) + (cs - ov) - 1) / (cs - ov))) =
          List.map (fun i => (text.drop (start + (cs - ov) + i * (cs - ov))).take cs)
          (List.range ((text.length - (start + (cs - ov)) + (cs - ov) - 1) / (cs - ov))) :=
        List.map_congr_left (fun i _ => by
          simp only [Function.comp_apply, Nat.succ_eq_add_one]
          rw [show start + (i + 1) * (cs - ov) = start + (cs - ov) + i * (cs - ov)
            by ring])
      rw [hm, List.range_succ_eq_map, List.map_cons, List.map_map, hhead, htail]
    · rw [if_neg (by exact_mod_cast hst)]
      rw [show text.length - start = 0 by omega]
      rw [Nat.div_eq_of_lt (by omega)]
      rfl

/-- C4 (amended): for `overlap < size` and nonempty text, `chunkText`
returns exactly `ceil(len(T) / (size - overlap))` chunks (not
`ceil(max(1, len(T) - overlap) / (size - overlap))`), window `i` being
the slice of length `size` starting at offset `i * (size - overlap)`
(the last windows shorter). -/
theorem chunkText_windows (text : List Char) (cs ov : Nat) (hov : ov < cs)
    (hne : text ≠ []) :
    chunkText text cs ov (text.length + 1) =
      some ((List.range ((text.length + (cs - ov) - 1) / (cs - ov))).map
        (fun i => (text.drop (i * (cs - ov))).take cs)) := by
  have h := chunkTextGo_windows text cs ov hov (text.length + 1) 0 (by omega)
  simp only [Nat.sub_zero, Nat.zero_add, Nat.cast_zero] at h
  exact h

/-- C4 witness: `chunkText "abc" 2 1` yields the three windows
`"ab"`, `"bc"`, `"c"`, matching the amended count `ceil(3 / 1) = 3`. -/
theorem chunkText_windows_witness :
    (1 < 2 ∧ "abc".toList ≠ []) ∧
      chunkText "abc".toList 2 1 ("abc".toList.length + 1) =
        some ((List.range (("abc".toList.length + (2 - 1) - 1) / (2 - 1))).map
          (fun i => ("abc".toList.drop (i * (2 - 1))).take 2)) :=
  ⟨⟨by decide, by decide⟩, chunkText_windows "abc".toList 2 1 (by decide) (by decide)⟩

/-- C4 counterexample: on the 10-character text `"0123456789"` with
`size = 10`, `overlap = 5`, the code produces 2 chunks while the claimed
formula `ceil(max(1, len - overlap) / (size - overlap))` gives 1. -/
theorem chunkText_count_formula_cex :
    (chunkText "0123456789".toList 10 5 11).map (fun l => l.length) = some 2 ∧
      (max 1 ("0123456789".toList.length - 5) + (10 - 5) - 1) / (10 - 5) = 1 ∧
      (2 : Nat) ≠ 1 := by
  refine ⟨by decide, by decide, by decide⟩

lemma findOverlapSize_eq_of_largest (res cur : List Char) (k : Nat) :
    ∀ hi, 50 ≤ k → k ≤ hi →
      res.drop (res.length - k) = cur.take k →
      (∀ j, k < j → j ≤ hi → res.drop (res.length - j) ≠ cur.take j) →
      findOverlapSize res cur hi = some k := by
  intro hi
  induction hi with
  | zero => intro h50 hk _ _; omega
  | succ hi ih =>
    intro h50 hk hmatch hnone
    rw [findOverlapSize]
    by_cases hsmall : hi + 1 < 50
    · omega
    · rw [if_neg hsmall]
      by_cases heq : k = hi + 1
      · subst heq
        rw [if_pos hmatch]
      · rw [if_neg (hnone (hi + 1) (by omega) le_rfl)]
        exact ih h50 (by omega) hmatch (fun j hj1 hj2 => hnone j hj1 (by omega))

/-- C7 (amended): `coalesce` is the identity on a single chunk, and on a
pair `[a, b]` it strips exactly the overlap of length `k` whenever `k`
lies in the scanned range `[50, min(400, |a|, |b|)]` and is the largest
candidate in that range whose suffix/prefix test succeeds; an overlap
outside that range (e.g. shorter than 50) is not detected. -/
theorem coalesceChunks_spec :
    (∀ c : List Char, coalesceChunks [c] = c) ∧
    (∀ (a b : List Char) (k : Nat), 50 ≤ k →
      k ≤ min 400 (min a.length b.length) →
      a.drop (a.length - k) = b.take k →
      (∀ j < min 400 (min a.length b.length) + 1, k < j →
        a.drop (a.length - j) ≠ b.take j) →
      coalesceChunks [a, b] = a ++ b.drop k) := by
  constructor
  · intro c; rfl
  · intro a b k h50 hk hmatch hnone
    show coalesceStep a b = a ++ b.drop k
    unfold coalesceStep
    rw [findOverlapSize_eq_of_largest a b k (min 400 (min a.length b.length)) h50 hk
      hmatch (fun j hj1 hj2 => hnone j (by omega) hj1)]

/-- C7 witness: `a = "abcde" ++ 50·'z'`, `b = 50·'z' ++ "qq"`, overlap
`k = 50` (and no larger candidate matches): the pair coalesces to
`a ++ b[50:]`. -/
theorem coalesceChunks_spec_witness :
    (50 ≤ 50 ∧
      50 ≤ min 400 (min ("abcde".toList ++ List.replicate 50 'z').length
        (List.replicate 50 'z' ++ "qq".toList).length) ∧
      ("abcde".toList ++ List.replicate 50 'z').drop
          (("abcde".toList ++ List.replicate 50 'z').length - 50) =
        (List.replicate 50 'z' ++ "qq".toList).take 50) ∧
    coalesceChunks ["abcde".toList ++ List.replicate 50 'z',
        List.replicate 50 'z' ++ "qq".toList] =
      ("abcde".toList ++ List.replicate 50 'z') ++
        (List.replicate 50 'z' ++ "qq".toList).drop 50 :=
  ⟨⟨by decide, by decide, by decide⟩,
    coalesceChunks_spec.2 ("abcde".toList ++ List.replicate 50 'z')
      (List.replicate 50 'z' ++ "qq".toList) 50 (by decide) (by decide) (by decide)
      (by decide)⟩

/-- C7 counterexample: the two equal 10-character chunks overlap fully
(`k = 10`: the length-10 suffix of `a` equals the length-10 prefix of
`b`), yet `coalesce([a, b])` is not `a ++ b[10:]` — the scan never tries
overlaps below 50 and appends with a newline separator instead. -/
theorem coalesceChunks_pair_cex :
    "0123456789".toList.drop ("0123456789".toList.length - 10) =
      "0123456789".toList.take 10 ∧
    coalesceChunks ["0123456789".toList, "0123456789".toList] ≠
      "0123456789".toList ++ "0123456789".toList.drop 10 := by
  exact ⟨by decide, by decide⟩

/-- C3 (amended): if the response contains a refusal phrase, accuracy is
`0.3` — unless more than 10 content words (length `> 4`) from the first
100 context words reappear in the response, in which case the
context-use bonus lifts it to `0.5`.  In all refusal cases accuracy is
at most `0.5`, not at most `0.3`. -/
theorem scoreResponseHeuristic_refusal_accuracy
    (query context response : List Char) (n : Nat) (s : ℚ)
    (h : hasRefusalIn response = true) :
    (scoreResponseHeuristic query context response n s).accuracy =
      if contextOverlapCount context response > 10 then 1/2 else 3/10 := by
  by_cases hc : contextOverlapCount context response > 10
  · simp only [scoreResponseHeuristic, h, if_true, if_pos hc]
    norm_num [jsMin]
  · simp only [scoreResponseHeuristic, h, if_true, if_neg hc]

/-- C3 witness: response `"cannot find"` with empty context has no
context-word bonus, so accuracy is exactly `0.3`. -/
theorem scoreResponseHeuristic_refusal_accuracy_witness :
    hasRefusalIn "cannot find".toList = true ∧
    (scoreResponseHeuristic [] [] "cannot find".toList 0 0).accuracy =
      if contextOverlapCount [] "cannot find".toList > 10 then 1/2 else 3/10 :=
  ⟨by decide, scoreResponseHeuristic_refusal_accuracy [] [] "cannot find".toList 0 0
    (by decide)⟩

/-- C3 counterexample: a response containing the refusal phrase
`"cannot find"` scores accuracy `0.5 > 0.3` when the context repeats a
content word of the response more than 10 times (the context-use bonus
`accuracy = min(1, accuracy + 0.2)` applies after the refusal penalty). -/
theorem scoreResponseHeuristic_refusal_bonus_cex :
    hasRefusalIn "zebra cannot find".toList = true ∧
    (scoreResponseHeuristic [] (List.replicate 11 "zebra ".toList).flatten
      "zebra cannot find".toList 3 (7/10)).accuracy = 1/2 ∧
    ¬ ((1 : ℚ)/2 ≤ 3/10) := by
  have h : hasRefusalIn "zebra cannot find".toList = true := by decide
  have hc : contextOverlapCount (List.replicate 11 "zebra ".toList).flatten
      "zebra cannot find".toList > 10 := by decide
  refine ⟨h, ?_, by norm_num⟩
  simp only [scoreResponseHeuristic, h, if_true, if_pos hc]
  norm_num [jsMin]

/-! C8: the Embedder Client. -/

/-- C8 (amended): a failure of the external embedding capability on a
batch call propagates out of `generateEmbeddings` (the `catch` block
rethrows).  A response with a mismatched vector count, however, is not
detected — see the counterexample. -/
theorem generateEmbeddings_error_propagates {α ε : Type}
    (service : List α → Except ε (List (Nat × List ℚ))) (t : α) (ts : List α)
    (e : ε) (h : service ((t :: ts).take 2048) = .error e) :
    generateEmbeddings service (t :: ts) = .error e := by
  rw [generateEmbeddings, h]

/-- A service that always fails (for the C8 witness). -/
def constErrService : List Nat → Except Unit (List (Nat × List ℚ)) :=
  fun _ => .error ()

/-- C8 witness: the failing service's error comes back verbatim. -/
theorem generateEmbeddings_error_propagates_witness :
    constErrService (([0] : List Nat).take 2048) = .error () ∧
    generateEmbeddings constErrService [0] = .error () :=
  ⟨rfl, generateEmbeddings_error_propagates constErrService 0 [] () rfl⟩

/-- A service that succeeds but returns no vectors at all (a mismatched
count for any nonempty batch). -/
def constEmptyService : List Nat → Except Unit (List (Nat × List ℚ)) :=
  fun _ => .ok []

/-- C8 counterexample: when the service returns a mismatched count
(0 vectors for 1 text), `generateEmbeddings` silently returns the
too-short vector list instead of failing with an error. -/
theorem generateEmbeddings_mismatch_cex :
    generateEmbeddings constEmptyService [0] = .ok [] ∧
    ([] : List (List ℚ)).length ≠ ([0] : List Nat).length := by
  constructor
  · have h1 : generateEmbeddings constEmptyService ([] : List Nat) = .ok [] := by
      rw [generateEmbeddings]
    rw [generateEmbeddings,
      show constEmptyService (((0 : Nat) :: []).take 2048) =
        Except.ok ([] : List (Nat × List ℚ)) from rfl,
      show (((0 : Nat) :: ([] : List Nat)).drop 2048) = ([] : List Nat) from rfl, h1]
    rfl
  · decide

lemma vectorResults_threshold (dist : List ℚ → List ℚ → ℚ) (docs : List DocRow)
    (chunks : List ChunkRow) (qe : List ℚ) (th : ℚ) (cf : Option Nat)
    (p : ChunkRow × ℚ) (hp : p ∈ vectorResults dist docs chunks qe th cf) :
    th < p.2 := by
  unfold vectorResults at hp
  rw [List.mem_filterMap] at hp
  obtain ⟨dc, _, hdc⟩ := hp
  split at hdc
  · next hcond =>
    rw [Bool.and_eq_true] at hcond
    obtain ⟨-, h2⟩ := hcond
    cases hdc
    exact of_decide_eq_true h2
  · exact absurd hdc (by simp)

/-- C2: every chunk returned by `hybrid_search_simple` has a vector
score strictly above the threshold: the `vector_results` stage keeps
only rows with `1 - (embedding <=> query_embedding) > match_threshold`,
and the later stages only rescore, sort and truncate. -/
theorem hybrid_search_simple_vector_threshold
    (dist : List ℚ → List ℚ → ℚ) (docs : List DocRow) (chunks : List ChunkRow)
    (qterms : List Token) (qe : List ℚ) (th : ℚ) (cnt : Nat) (cf : Option Nat)
    (bw vw : ℚ) (s : ScoredRow)
    (hs : s ∈ hybrid_search_simple dist docs chunks qterms qe th cnt cf bw vw) :
    th < s.vector_score := by
  unfold hybrid_search_simple at hs
  have hs1 := List.take_subset cnt _ hs
  have hs2 := (List.perm_insertionSort scoredGe _).mem_iff.mp hs1
  rw [List.mem_map] at hs2
  obtain ⟨p, hp, rfl⟩ := hs2
  exact vectorResults_threshold dist docs chunks qe th cf p hp

/-- C2 witness. -/
theorem hybrid_search_simple_vector_threshold_witness :
    ((⟨10, 1, 0, ["hello"], 0, 1, 7/10, .vectorOnly⟩ : ScoredRow) ∈
      hybrid_search_simple (fun _ _ => 0) [⟨1, 5⟩] [⟨10, 1, 0, ["hello"], [1]⟩]
        ["alpha"] [1] (1/2) 5 (some 5) (3/10) (7/10)) ∧
    (1 : ℚ)/2 < (⟨10, 1, 0, ["hello"], 0, 1, 7/10, .vectorOnly⟩ : ScoredRow).vector_score := by
  have hmem : (⟨10, 1, 0, ["hello"], 0, 1, 7/10, .vectorOnly⟩ : ScoredRow) ∈
      hybrid_search_simple (fun _ _ => 0) [⟨1, 5⟩] [⟨10, 1, 0, ["hello"], [1]⟩]
        ["alpha"] [1] (1/2) 5 (some 5) (3/10) (7/10) := by
    rw [show hybrid_search_simple (fun _ _ => 0) [⟨1, 5⟩] [⟨10, 1, 0, ["hello"], [1]⟩]
        ["alpha"] [1] (1/2) 5 (some 5) (3/10) (7/10) =
        [⟨10, 1, 0, ["hello"], 0, 1, 7/10, .vectorOnly⟩] by
      simp [hybrid_search_simple, vectorResults, companyOk, scoredGe,
        List.insertionSort, List.orderedInsert, mkScored, plainToOr, bm25_rank,
        tsRankCd, tsMatch, countOcc, ScoredRow.mk.injEq,
        show (2⁻¹ : ℚ) < 1 by norm_num]]
    exact List.mem_singleton_self _
  exact ⟨hmem,
    hybrid_search_simple_vector_threshold (fun _ _ => 0) [⟨1, 5⟩]
      [⟨10, 1, 0, ["hello"], [1]⟩] ["alpha"] [1] (1/2) 5 (some 5) (3/10) (7/10)
      ⟨10, 1, 0, ["hello"], 0, 1, 7/10, .vectorOnly⟩ hmem⟩

/-- C1: the scoring stage of `hybrid_search_simple` ranks with the
OR-rewritten tsquery, so a chunk that survives the vector threshold and
contains at least one query term — but not all of them — still gets a
strictly positive BM25 score (and is tagged `partial_keyword`), instead
of being zeroed by AND-only matching. -/
theorem hybrid_search_simple_or_lexical
    (dist : List ℚ → List ℚ → ℚ) (docs : List DocRow) (chunks : List ChunkRow)
    (qterms : List Token) (qe : List ℚ) (th : ℚ) (cf : Option Nat) (bw vw : ℚ)
    (s : ScoredRow)
    (hs : s ∈ (vectorResults dist docs chunks qe th cf).map
      (mkScored ⟨qterms, true⟩ (plainToOr ⟨qterms, true⟩) bw vw))
    (hone : ∃ t ∈ qterms, s.tokens.contains t = true)
    (hnot : ¬ ∀ t ∈ qterms, s.tokens.contains t = true) :
    0 < s.bm25_score ∧ s.rank_method = RankMethod.partialKeyword := by
  obtain ⟨p, hp, rfl⟩ := List.mem_map.mp hs
  obtain ⟨t, ht, htT⟩ := hone
  have htT' : p.1.tokens.contains t = true := htT
  have htmem : t ∈ p.1.tokens := by simpa using htT'
  have hOr : tsMatch p.1.tokens (plainToOr ⟨qterms, true⟩) = true := by
    simp only [tsMatch, plainToOr]
    rw [if_neg Bool.false_ne_true, List.any_eq_true]
    exact ⟨t, ht, htT'⟩
  have hAnd : tsMatch p.1.tokens ⟨qterms, true⟩ = false := by
    rcases htm : tsMatch p.1.tokens ⟨qterms, true⟩ with _ | _
    · rfl
    · exact absurd (fun u hu => List.all_eq_true.mp htm u hu) hnot
  have hrank : 0 < bm25_rank p.1.tokens (plainToOr ⟨qterms, true⟩) := by
    rw [bm25_rank, tsRankCd, if_pos hOr]
    have hS : 0 < (qterms.map (fun u => countOcc u p.1.tokens)).sum := by
      have h1 : 0 < countOcc t p.1.tokens :=
        List.length_pos_of_mem (List.mem_filter.mpr ⟨htmem, by simp⟩)
      have h2 : countOcc t p.1.tokens ≤
          (qterms.map (fun u => countOcc u p.1.tokens)).sum :=
        List.single_le_sum (fun _ _ => Nat.zero_le _) _ (List.mem_map_of_mem _ ht)
      omega
    have hlen : 0 < p.1.tokens.length := List.length_pos_of_mem htmem
    have hr : 0 < ((plainToOr ⟨qterms, true⟩).terms.map
        (fun u => countOcc u p.1.tokens)).sum / ((p.1.tokens.length : ℚ)) := by
      apply div_pos
      · exact_mod_cast hS
      · exact_mod_cast hlen
    exact div_pos hr (by linarith)
  constructor
  · exact hrank
  · show (if tsMatch p.1.tokens ⟨qterms, true⟩ = true then RankMethod.hybrid
      else if 0 < bm25_rank p.1.tokens (plainToOr ⟨qterms, true⟩) then
        RankMethod.partialKeyword
      else RankMethod.vectorOnly) = RankMethod.partialKeyword
    rw [hAnd]
    simp only [Bool.false_eq_true, if_false]
    exact if_pos hrank

/-- C1 witness: query terms `["alpha", "beta"]`, chunk tokens
`["alpha", "x"]`: one term matches, one does not, and the BM25 score is
`1/3 > 0`. -/
theorem hybrid_search_simple_or_lexical_witness :
    ((⟨10, 1, 0, ["alpha", "x"], 1/3, 1, 4/5, .partialKeyword⟩ : ScoredRow) ∈
      (vectorResults (fun _ _ => 0) [⟨1, 5⟩] [⟨10, 1, 0, ["alpha", "x"], [1]⟩]
        [1] (1/2) none).map
        (mkScored ⟨["alpha", "beta"], true⟩ (plainToOr ⟨["alpha", "beta"], true⟩)
          (3/10) (7/10))) ∧
    (∃ t ∈ ["alpha", "beta"],
      (⟨10, 1, 0, ["alpha", "x"], 1/3, 1, 4/5, .partialKeyword⟩ : ScoredRow).tokens.contains t
        = true) ∧
    (¬ ∀ t ∈ ["alpha", "beta"],
      (⟨10, 1, 0, ["alpha", "x"], 1/3, 1, 4/5, .partialKeyword⟩ : ScoredRow).tokens.contains t
        = true) ∧
    (0 < (⟨10, 1, 0, ["alpha", "x"], 1/3, 1, 4/5, .partialKeyword⟩ : ScoredRow).bm25_score ∧
      (⟨10, 1, 0, ["alpha", "x"], 1/3, 1, 4/5, .partialKeyword⟩ : ScoredRow).rank_method =
        RankMethod.partialKeyword) := by
  have hmem : (⟨10, 1, 0, ["alpha", "x"], 1/3, 1, 4/5, .partialKeyword⟩ : ScoredRow) ∈
      (vectorResults (fun _ _ => 0) [⟨1, 5⟩] [⟨10, 1, 0, ["alpha", "x"], [1]⟩]
        [1] (1/2) none).map
        (mkScored ⟨["alpha", "beta"], true⟩ (plainToOr ⟨["alpha", "beta"], true⟩)
          (3/10) (7/10)) := by
    rw [show (vectorResults (fun _ _ => 0) [⟨1, 5⟩] [⟨10, 1, 0, ["alpha", "x"], [1]⟩]
        [1] (1/2) none).map
        (mkScored ⟨["alpha", "beta"], true⟩ (plainToOr ⟨["alpha", "beta"], true⟩)
          (3/10) (7/10)) =
        [⟨10, 1, 0, ["alpha", "x"], 1/3, 1, 4/5, .partialKeyword⟩] by
      simp [vectorResults, companyOk, mkScored, plainToOr, bm25_rank,
        tsRankCd, tsMatch, countOcc, ScoredRow.mk.injEq,
        show (2⁻¹ : ℚ) < 1 by norm_num]
      norm_num]
    exact List.mem_singleton_self _
  exact ⟨hmem, by decide, by decide,
    hybrid_search_simple_or_lexical (fun _ _ => 0) [⟨1, 5⟩]
      [⟨10, 1, 0, ["alpha", "x"], [1]⟩] ["alpha", "beta"] [1] (1/2) none
      (3/10) (7/10) ⟨10, 1, 0, ["alpha", "x"], 1/3, 1, 4/5, .partialKeyword⟩
      hmem (by decide) (by decide)⟩

/-! ## Context Assembler lemmas -/

/-- Lookup for the insertion-ordered grouping map. -/
def bucketOf : List (Nat × List RetrievedChunk) → Nat → List RetrievedChunk
  | [], _ => []
  | (d', b) :: rest, d => if d = d' then b else bucketOf rest d

lemma bucketOf_addToGroups (gs : List (Nat × List RetrievedChunk))
    (c : RetrievedChunk) (d : Nat) :
    bucketOf (addToGroups gs c) d =
      if c.document_id = d then bucketOf gs d ++ [c] else bucketOf gs d := by
  induction gs with
  | nil =>
    by_cases h : c.document_id = d
    · simp [addToGroups, bucketOf, h]
    · have h' : ¬ d = c.document_id := fun hh => h hh.symm
      simp [addToGroups, bucketOf, h, h']
  | cons p rest ih =>
    obtain ⟨d', b⟩ := p
    by_cases h1 : c.document_id = d'
    · by_cases h2 : d = d'
      · simp [addToGroups, bucketOf, h1, h2, h1.trans h2.symm]
      · have h3 : ¬ d' = d := fun hh => h2 hh.symm
        simp [addToGroups, bucketOf, h1, h2, h3]
    · by_cases h2 : d = d'
      · have h3 : ¬ c.document_id = d := fun hh => h1 (hh.trans h2)
        simp [addToGroups, bucketOf, h1, h2, h3]
      · simp [addToGroups, bucketOf, h1, h2, ih]

lemma bucketOf_foldl (l : List RetrievedChunk) :
    ∀ (gs : List (Nat × List RetrievedChunk)) (d : Nat),
      bucketOf (l.foldl addToGroups gs) d =
        bucketOf gs d ++ l.filter (fun c => c.document_id == d) := by
  induction l with
  | nil => intro gs d; simp
  | cons c l ih =>
    intro gs d
    rw [List.foldl_cons, ih, bucketOf_addToGroups]
    by_cases h : c.document_id = d
    · simp [List.filter_cons, h]
    · simp [List.filter_cons, h]

lemma bucketOf_groupByDocument (l : List RetrievedChunk) (d : Nat) :
    bucketOf (groupByDocument l) d = l.filter (fun c => c.document_id == d) := by
  rw [groupByDocument, bucketOf_foldl]
  rfl

lemma mem_of_bucketOf_ne_nil :
    ∀ (gs : List (Nat × List RetrievedChunk)) (d : Nat),
      bucketOf gs d ≠ [] → (d, bucketOf gs d) ∈ gs := by
  intro gs
  induction gs with
  | nil => intro d h; exact absurd rfl h
  | cons p rest ih =>
    obtain ⟨d', b⟩ := p
    intro d h
    by_cases h2 : d = d'
    · subst h2
      simp only [bucketOf, if_pos rfl] at h ⊢
      exact List.mem_cons_self _ _
    · simp only [bucketOf, if_neg h2] at h ⊢
      exact List.mem_cons_of_mem _ (ih d h)

lemma keys_addToGroups (gs : List (Nat × List RetrievedChunk)) (c : RetrievedChunk) :
    (addToGroups gs c).map Prod.fst =
      if c.document_id ∈ gs.map Prod.fst then gs.map Prod.fst
      else gs.map Prod.fst ++ [c.document_id] := by
  induction gs with
  | nil => simp [addToGroups]
  | cons p rest ih =>
    obtain ⟨d', b⟩ := p
    by_cases h1 : c.document_id = d'
    · simp [addToGroups, h1]
    · by_cases h2 : c.document_id ∈ rest.map Prod.fst
      · simp [addToGroups, h1, h2, ih]
      · simp [addToGroups, h1, h2, ih]

lemma keys_nodup_foldl (l : List RetrievedChunk) :
    ∀ gs : List (Nat × List RetrievedChunk), (gs.map Prod.fst).Nodup →
      ((l.foldl addToGroups gs).map Prod.fst).Nodup := by
  induction l with
  | nil => intro gs h; exact h
  | cons c l ih =>
    intro gs h
    rw [List.foldl_cons]
    refine ih _ ?_
    rw [keys_addToGroups]
    split
    · exact h
    · next hnot =>
      rw [List.nodup_append]
      exact ⟨h, List.nodup_singleton _, by simpa [List.disjoint_singleton] using hnot⟩

lemma keys_nodup_groupByDocument (l : List RetrievedChunk) :
    ((groupByDocument l).map Prod.fst).Nodup :=
  keys_nodup_foldl l [] (by simp)

lemma bucketOf_of_mem (d : Nat) (b : List RetrievedChunk) :
    ∀ gs : List (Nat × List RetrievedChunk), (d, b) ∈ gs →
      (gs.map Prod.fst).Nodup → bucketOf gs d = b := by
  intro gs
  induction gs with
  | nil => intro h; exact absurd h (List.not_mem_nil _)
  | cons p rest ih =>
    obtain ⟨d', b'⟩ := p
    intro hmem hnodup
    rcases List.mem_cons.mp hmem with heq | htail
    · injection heq with h1 h2
      subst h1; subst h2
      simp [bucketOf]
    · have hd : d ∈ rest.map Prod.fst := by
        exact List.mem_map_of_mem Prod.fst htail
      have hne : ¬ d = d' := by
        rintro rfl
        rw [List.map_cons, List.nodup_cons] at hnodup
        exact hnodup.1 hd
      simp only [bucketOf, if_neg hne]
      rw [List.map_cons, List.nodup_cons] at hnodup
      exact ih htail hnodup.2

lemma mem_foldl_append {α β : Type} (f : β → List α) (m : α) :
    ∀ (gs : List β) (a0 : List α),
      (m ∈ gs.foldl (fun acc p => acc ++ f p) a0 ↔ m ∈ a0 ∨ ∃ p ∈ gs, m ∈ f p) := by
  intro gs
  induction gs with
  | nil => intro a0; simp
  | cons g gs ih =>
    intro a0
    rw [List.foldl_cons, ih]
    simp [List.mem_append]
    tauto

lemma splitRunsGo_head_mem :
    ∀ (rest : List RetrievedChunk) (cur : RetrievedChunk) (acc : List RetrievedChunk),
      ∃ g ∈ splitRunsGo cur acc rest, cur ∈ g ∧ ∀ x ∈ acc, x ∈ g := by
  intro rest
  induction rest with
  | nil =>
    intro cur acc
    exact ⟨(cur :: acc).reverse, List.mem_singleton_self _, by simp,
      fun x hx => by simp [hx]⟩
  | cons c r ih =>
    intro cur acc
    by_cases hc : c.chunk_index = cur.chunk_index + 1
    · rw [splitRunsGo, if_pos hc]
      obtain ⟨g, hg, hcg, hsub⟩ := ih c (cur :: acc)
      exact ⟨g, hg, hsub cur (List.mem_cons_self _ _),
        fun x hx => hsub x (List.mem_cons_of_mem _ hx)⟩
    · rw [splitRunsGo, if_neg hc]
      exact ⟨(cur :: acc).reverse, List.mem_cons_self _ _, by simp,
        fun x hx => by simp [hx]⟩

lemma splitRunsGo_adjacent :
    ∀ (rest : List RetrievedChunk) (cur : RetrievedChunk) (acc : List RetrievedChunk)
      (i : Nat) (c1 c2 : RetrievedChunk),
      (cur :: rest)[i]? = some c1 → (cur :: rest)[i + 1]? = some c2 →
      c2.chunk_index = c1.chunk_index + 1 →
      ∃ g ∈ splitRunsGo cur acc rest, c1 ∈ g ∧ c2 ∈ g := by
  intro rest
  induction rest with
  | nil =>
    intro cur acc i c1 c2 h1 h2 _
    rw [show (i + 1 : Nat) = i + 1 from rfl] at h2
    rcases i with _ | j <;> simp at h2
  | cons c r ih =>
    intro cur acc i c1 c2 h1 h2 hadj
    rcases i with _ | j
    · rw [List.getElem?_cons_zero] at h1
      injection h1 with h1
      subst h1
      rw [show (0 + 1 : Nat) = 1 from rfl, List.getElem?_cons_succ,
        List.getElem?_cons_zero] at h2
      injection h2 with h2
      subst h2
      rw [splitRunsGo, if_pos hadj]
      obtain ⟨g, hg, hcg, hsub⟩ := splitRunsGo_head_mem r c (cur :: acc)
      exact ⟨g, hg, hsub cur (List.mem_cons_self _ _), hcg⟩
    · rw [List.getElem?_cons_succ] at h1
      rw [show (j + 1 + 1 : Nat) = (j + 1) + 1 from rfl, List.getElem?_cons_succ] at h2
      by_cases hc : c.chunk_index = cur.chunk_index + 1
      · rw [splitRunsGo, if_pos hc]
        exact ih c (cur :: acc) j c1 c2 h1 h2 hadj
      · rw [splitRunsGo, if_neg hc]
        obtain ⟨g, hg, hc1, hc2⟩ := ih c [] j c1 c2 h1 h2 hadj
        exact ⟨g, List.mem_cons_of_mem _ hg, hc1, hc2⟩

lemma splitRunsGo_sub :
    ∀ (rest : List RetrievedChunk) (cur : RetrievedChunk) (acc : List RetrievedChunk)
      (g : List RetrievedChunk), g ∈ splitRunsGo cur acc rest →
      g ≠ [] ∧ ∀ x ∈ g, x = cur ∨ x ∈ acc ∨ x ∈ rest := by
  intro rest
  induction rest with
  | nil =>
    intro cur acc g hg
    rw [splitRunsGo, List.mem_singleton] at hg
    subst hg
    refine ⟨by simp, fun x hx => ?_⟩
    rw [List.mem_reverse, List.mem_cons] at hx
    tauto
  | cons c r ih =>
    intro cur acc g hg
    by_cases hc : c.chunk_index = cur.chunk_index + 1
    · rw [splitRunsGo, if_pos hc] at hg
      obtain ⟨hne, hsub⟩ := ih c (cur :: acc) g hg
      refine ⟨hne, fun x hx => ?_⟩
      rcases hsub x hx with rfl | hx2 | hx3
      · right; right; exact List.mem_cons_self _ _
      · rcases List.mem_cons.mp hx2 with rfl | hx4
        · left; rfl
        · right; left; exact hx4
      · right; right; exact List.mem_cons_of_mem _ hx3
    · rw [splitRunsGo, if_neg hc] at hg
      rcases List.mem_cons.mp hg with rfl | hg2
      · refine ⟨by simp, fun x hx => ?_⟩
        rw [List.mem_reverse, List.mem_cons] at hx
        tauto
      · obtain ⟨hne, hsub⟩ := ih c [] g hg2
        refine ⟨hne, fun x hx => ?_⟩
        rcases hsub x hx with rfl | hx2 | hx3
        · right; right; exact List.mem_cons_self _ _
        · exact absurd hx2 (List.not_mem_nil _)
        · right; right; exact List.mem_cons_of_mem _ hx3

lemma splitRuns_sub (s : List RetrievedChunk) (g : List RetrievedChunk)
    (hg : g ∈ splitRuns s) : g ≠ [] ∧ ∀ x ∈ g, x ∈ s := by
  cases s with
  | nil => exact absurd hg (List.not_mem_nil _)
  | cons cur rest =>
    obtain ⟨hne, hsub⟩ := splitRunsGo_sub rest cur [] g hg
    refine ⟨hne, fun x hx => ?_⟩
    rcases hsub x hx with rfl | hx2 | hx3
    · exact List.mem_cons_self _ _
    · exact absurd hx2 (List.not_mem_nil _)
    · exact List.mem_cons_of_mem _ hx3

lemma strict_sorted_adjacent :
    ∀ (s : List RetrievedChunk),
      List.Pairwise (fun a b => a.chunk_index < b.chunk_index) s →
      ∀ c1 c2 : RetrievedChunk, c1 ∈ s → c2 ∈ s →
      c2.chunk_index = c1.chunk_index + 1 →
      ∃ i : Nat, s[i]? = some c1 ∧ s[i + 1]? = some c2 := by
  intro s
  induction s with
  | nil => intro _ c1 c2 h1; exact absurd h1 (List.not_mem_nil _)
  | cons x rest ih =>
    intro hp c1 c2 h1 h2 hadj
    rw [List.pairwise_cons] at hp
    obtain ⟨hx, hrest⟩ := hp
    by_cases hc1 : c1 = x
    · subst hc1
      have hc2rest : c2 ∈ rest := by
        rcases List.mem_cons.mp h2 with rfl | h
        · omega
        · exact h
      cases rest with
      | nil => exact absurd hc2rest (List.not_mem_nil _)
      | cons y r =>
        have hy : c2 = y := by
          rcases List.mem_cons.mp hc2rest with rfl | hr
          · rfl
          · exfalso
            rw [List.pairwise_cons] at hrest
            have h3 := hrest.1 c2 hr
            have h4 := hx y (List.mem_cons_self _ _)
            omega
        exact ⟨0, by simp, by simp [hy]⟩
    · have h1rest : c1 ∈ rest := by
        rcases List.mem_cons.mp h1 with rfl | h
        · exact absurd rfl hc1
        · exact h
      have hc2rest : c2 ∈ rest := by
        rcases List.mem_cons.mp h2 with rfl | h
        · have := hx c1 h1rest
          omega
        · exact h
      obtain ⟨i, hi1, hi2⟩ := ih hrest c1 c2 h1rest hc2rest hadj
      exact ⟨i + 1, by simpa using hi1, by simpa using hi2⟩

instance : IsTotal RetrievedChunk idxLe :=
  ⟨fun a b => Nat.le_total a.chunk_index b.chunk_index⟩

instance : IsTrans RetrievedChunk idxLe :=
  ⟨fun _ _ _ hab hbc => Nat.le_trans hab hbc⟩

instance : IsTotal MergedChunk scoreGe :=
  ⟨fun a b => (le_total b.max_combined_score a.max_combined_score)⟩

instance : IsTrans MergedChunk scoreGe :=
  ⟨fun _ _ _ hab hbc => le_trans hbc hab⟩

lemma createMergedChunk_doc (g : List RetrievedChunk) (d : Nat) (hne : g ≠ [])
    (hall : ∀ c ∈ g, c.document_id = d) :
    (createMergedChunk g).document_id = d := by
  cases g with
  | nil => exact absurd rfl hne
  | cons c0 g' => simpa [createMergedChunk] using hall c0 (List.mem_cons_self _ _)

/-- C6: the Context Assembler (i) always places two chunks of the same
document with indices `i` and `i + 1` into one MergedPassage, (ii) only
ever builds a passage out of chunks of that passage's single document,
and (iii) returns the passages sorted by descending `max_combined_score`.
The hypothesis is the data-model invariant that a retrieval result never
contains two distinct chunks of one document with equal indices. -/
theorem assembleMergedChunks_spec (l : List RetrievedChunk)
    (hdist : l.Pairwise (fun a b => a.document_id = b.document_id →
      a.chunk_index ≠ b.chunk_index)) :
    (∀ c1 ∈ l, ∀ c2 ∈ l, c1.document_id = c2.document_id →
      c2.chunk_index = c1.chunk_index + 1 →
      ∃ m ∈ assembleMergedChunks l, m.document_id = c1.document_id ∧
        c1.chunk_index ∈ m.chunk_indices ∧ c2.chunk_index ∈ m.chunk_indices) ∧
    (∀ m ∈ assembleMergedChunks l, ∃ g : List RetrievedChunk, g ≠ [] ∧
      (∀ c ∈ g, c ∈ l ∧ c.document_id = m.document_id) ∧
      m = createMergedChunk g) ∧
    List.Pairwise scoreGe (assembleMergedChunks l) := by
  have hassemble : ∀ m : MergedChunk,
      m ∈ assembleMergedChunks l ↔ m ∈ mergedChunksOf l := fun m =>
    (List.perm_insertionSort scoreGe (mergedChunksOf l)).mem_iff
  have hmerged : ∀ m : MergedChunk, m ∈ mergedChunksOf l ↔
      ∃ p ∈ groupByDocument l, m ∈ (splitRuns (sortByIdx p.2)).map createMergedChunk := by
    intro m
    rw [mergedChunksOf, mem_foldl_append]
    simp
  refine ⟨?_, ?_, ?_⟩
  · -- (i) consecutive same-document chunks share a passage
    intro c1 h1 c2 h2 hdoc hadj
    have hc1b : c1 ∈ l.filter (fun c => c.document_id == c1.document_id) :=
      List.mem_filter.mpr ⟨h1, by simp⟩
    have hc2b : c2 ∈ l.filter (fun c => c.document_id == c1.document_id) :=
      List.mem_filter.mpr ⟨h2, by simp [hdoc.symm]⟩
    have hperm : List.Perm
        (sortByIdx (l.filter (fun c => c.document_id == c1.document_id)))
        (l.filter (fun c => c.document_id == c1.document_id)) :=
      List.perm_insertionSort idxLe _
    have hsorted : List.Pairwise idxLe
        (sortByIdx (l.filter (fun c => c.document_id == c1.document_id))) :=
      List.sorted_insertionSort idxLe _
    have hbpair : (l.filter (fun c => c.document_id == c1.document_id)).Pairwise
        (fun a b => a.document_id = b.document_id → a.chunk_index ≠ b.chunk_index) :=
      hdist.sublist (List.filter_sublist l)
    have hbne : (l.filter (fun c => c.document_id == c1.document_id)).Pairwise
        (fun a b => a.chunk_index ≠ b.chunk_index) := by
      refine List.Pairwise.imp_of_mem ?_ hbpair
      intro a b ha hb hR
      have ha2 : a.document_id = c1.document_id := by
        simpa using (List.mem_filter.mp ha).2
      have hb2 : b.document_id = c1.document_id := by
        simpa using (List.mem_filter.mp hb).2
      exact hR (ha2.trans hb2.symm)
    have hsne : (sortByIdx (l.filter (fun c => c.document_id == c1.document_id))).Pairwise
        (fun a b => a.chunk_index ≠ b.chunk_index) :=
      (hperm.pairwise_iff (fun h => Ne.symm h)).mpr hbne
    have hslt : (sortByIdx (l.filter (fun c => c.document_id == c1.document_id))).Pairwise
        (fun a b => a.chunk_index < b.chunk_index) :=
      (hsorted.and hsne).imp (fun h => lt_of_le_of_ne h.1 h.2)
    have hc1s : c1 ∈ sortByIdx (l.filter (fun c => c.document_id == c1.document_id)) :=
      hperm.mem_iff.mpr hc1b
    have hc2s : c2 ∈ sortByIdx (l.filter (fun c => c.document_id == c1.document_id)) :=
      hperm.mem_iff.mpr hc2b
    obtain ⟨i, hi1, hi2⟩ := strict_sorted_adjacent _ hslt c1 c2 hc1s hc2s hadj
    cases hcase : sortByIdx (l.filter (fun c => c.document_id == c1.document_id)) with
    | nil =>
      rw [hcase] at hc1s
      exact absurd hc1s (List.not_mem_nil _)
    | cons cur rest =>
      rw [hcase] at hi1 hi2
      obtain ⟨g, hg, hc1g, hc2g⟩ := splitRunsGo_adjacent rest cur [] i c1 c2 hi1 hi2 hadj
      have hgruns : g ∈ splitRuns
          (sortByIdx (l.filter (fun c => c.document_id == c1.document_id))) := by
        rw [hcase]
        exact hg
      have hmmem : createMergedChunk g ∈
          (splitRuns (sortByIdx (l.filter (fun c => c.document_id == c1.document_id)))).map
            createMergedChunk :=
        List.mem_map_of_mem createMergedChunk hgruns
      have hbnenil : l.filter (fun c => c.document_id == c1.document_id) ≠ [] :=
        List.ne_nil_of_mem hc1b
      have hbucket : bucketOf (groupByDocument l) c1.document_id =
          l.filter (fun c => c.document_id == c1.document_id) :=
        bucketOf_groupByDocument l c1.document_id
      have hpair : (c1.document_id, l.filter (fun c => c.document_id == c1.document_id)) ∈
          groupByDocument l := by
        have h := mem_of_bucketOf_ne_nil (groupByDocument l) c1.document_id
          (by rw [hbucket]; exact hbnenil)
        rwa [hbucket] at h
      have hmof : createMergedChunk g ∈ mergedChunksOf l :=
        (hmerged _).mpr ⟨(c1.document_id, l.filter (fun c => c.document_id == c1.document_id)),
          hpair, hmmem⟩
      obtain ⟨hgne, hgsub⟩ := splitRuns_sub _ g hgruns
      refine ⟨createMergedChunk g, (hassemble _).mpr hmof, ?_, ?_, ?_⟩
      · refine createMergedChunk_doc g c1.document_id hgne (fun c hc => ?_)
        have hcb := hperm.mem_iff.mp (hgsub c hc)
        simpa using (List.mem_filter.mp hcb).2
      · exact List.mem_map_of_mem (fun c => c.chunk_index) hc1g
      · exact List.mem_map_of_mem (fun c => c.chunk_index) hc2g
  · -- (ii) every passage is built from chunks of its own document
    intro m hm
    obtain ⟨⟨d, b⟩, hpair, hmg⟩ := (hmerged m).mp ((hassemble m).mp hm)
    obtain ⟨g, hgruns, hgm⟩ := List.mem_map.mp hmg
    subst hgm
    have hbeq : b = l.filter (fun c => c.document_id == d) := by
      have h := bucketOf_of_mem d b (groupByDocument l) hpair (keys_nodup_groupByDocument l)
      rw [bucketOf_groupByDocument] at h
      exact h.symm
    obtain ⟨hgne, hgsub⟩ := splitRuns_sub (sortByIdx b) g hgruns
    have hdocs : ∀ c ∈ g, c ∈ l ∧ c.document_id = d := by
      intro c hc
      have hcb : c ∈ b := (List.perm_insertionSort idxLe b).mem_iff.mp (hgsub c hc)
      rw [hbeq] at hcb
      exact ⟨(List.mem_filter.mp hcb).1, by simpa using (List.mem_filter.mp hcb).2⟩
    have hmd : (createMergedChunk g).document_id = d :=
      createMergedChunk_doc g d hgne (fun c hc => (hdocs c hc).2)
    refine ⟨g, hgne, fun c hc => ⟨(hdocs c hc).1, (hdocs c hc).2.trans hmd.symm⟩, rfl⟩
  · -- (iii) descending sort by max fused score
    exact List.sorted_insertionSort scoreGe (mergedChunksOf l)

/-- C6 witness: two chunks of one document with indices 0 and 1 — the
theorem's invariant holds and its three conclusions follow. -/
theorem assembleMergedChunks_spec_witness :
    ([⟨1, 7, "ab".toList, 0, 0, 1/2, 1/2, 0⟩,
      ⟨2, 7, "cd".toList, 1, 0, 1/2, 3/5, 0⟩] : List RetrievedChunk).Pairwise
      (fun a b => a.document_id = b.document_id → a.chunk_index ≠ b.chunk_index) ∧
    ((∀ c1 ∈ ([⟨1, 7, "ab".toList, 0, 0, 1/2, 1/2, 0⟩,
      ⟨2, 7, "cd".toList, 1, 0, 1/2, 3/5, 0⟩] : List RetrievedChunk),
      ∀ c2 ∈ ([⟨1, 7, "ab".toList, 0, 0, 1/2, 1/2, 0⟩,
        ⟨2, 7, "cd".toList, 1, 0, 1/2, 3/5, 0⟩] : List RetrievedChunk),
      c1.document_id = c2.document_id →
      c2.chunk_index = c1.chunk_index + 1 →
      ∃ m ∈ assembleMergedChunks [⟨1, 7, "ab".toList, 0, 0, 1/2, 1/2, 0⟩,
          ⟨2, 7, "cd".toList, 1, 0, 1/2, 3/5, 0⟩], m.document_id = c1.document_id ∧
        c1.chunk_index ∈ m.chunk_indices ∧ c2.chunk_index ∈ m.chunk_indices) ∧
    (∀ m ∈ assembleMergedChunks [⟨1, 7, "ab".toList, 0, 0, 1/2, 1/2, 0⟩,
        ⟨2, 7, "cd".toList, 1, 0, 1/2, 3/5, 0⟩], ∃ g : List RetrievedChunk, g ≠ [] ∧
      (∀ c ∈ g, c ∈ ([⟨1, 7, "ab".toList, 0, 0, 1/2, 1/2, 0⟩,
        ⟨2, 7, "cd".toList, 1, 0, 1/2, 3/5, 0⟩] : List RetrievedChunk) ∧
        c.document_id = m.document_id) ∧
      m = createMergedChunk g) ∧
    List.Pairwise scoreGe (assembleMergedChunks [⟨1, 7, "ab".toList, 0, 0, 1/2, 1/2, 0⟩,
      ⟨2, 7, "cd".toList, 1, 0, 1/2, 3/5, 0⟩])) :=
  ⟨by decide,
    assembleMergedChunks_spec
      [⟨1, 7, "ab".toList, 0, 0, 1/2, 1/2, 0⟩, ⟨2, 7, "cd".toList, 1, 0, 1/2, 3/5, 0⟩]
      (by decide)⟩

end ChatApp
